import Mathlib

/-!
Verification of the waveform synthesizer core (`src/synthesizer/synth.py`).

The Python module generates infinite, lazily pulled streams of floating-point
samples (oscillators), combinators over such streams (envelope, delay, clip,
echo, ...), and a synthesis facade that renders a finite duration into a
quantized integer buffer.  The embedding below models Python floats by exact
rationals (or reals where `sin`/`log` intervene), a pulled stream by a
function `ℕ → ℚ` (index = how many samples were pulled before), and fallible
Python operations (`ZeroDivisionError`, `math.log` domain errors) by `Option`.
Generator loops whose per-iteration state matters (the ADSR envelope) are
translated loop by loop; simple accumulator loops (`t += increment`) are
translated by the exact closed form of the accumulator.
-/

namespace Synth

/-- Python's `int(x)` applied to a float: truncation toward zero. -/
def pyint {K : Type} [LinearOrderedField K] [FloorRing K] (x : K) : ℤ :=
  if 0 ≤ x then ⌊x⌋ else ⌈x⌉

/-- Python's `x % 1` on a float: the nonnegative fractional part `x - ⌊x⌋`. -/
def pyfract {K : Type} [LinearOrderedField K] [FloorRing K] (x : K) : K :=
  x - ⌊x⌋

/-- Python's `a / b`: raises `ZeroDivisionError` when `b = 0`, modelled as `none`. -/
def pydiv (a b : ℚ) : Option ℚ :=
  if b = 0 then none else some (a / b)

/-- Loop body of `WaveSynth.__render_sample`:
`for _ in range(count): samples.append(int(next(wave)))`, pulling the wave at
successive indices starting from `i`. -/
def renderLoop {K : Type} [LinearOrderedField K] [FloorRing K] (wave : ℕ → K) :
    ℕ → ℕ → List ℤ
  | _, 0 => []
  | i, n + 1 => pyint (wave i) :: renderLoop wave (i + 1) n

/-- `WaveSynth.__render_sample`: pulls `int(duration*samplerate)` samples from the
wave, truncating each to an integer (the buffer container and channel count are
outside the core and dropped). -/
def WaveSynth.render_sample {K : Type} [LinearOrderedField K] [FloorRing K]
    (samplerate : ℕ) (duration : K) (wave : ℕ → K) : List ℤ :=
  renderLoop wave 0 (pyint (duration * (samplerate : K))).toNat

/-- The `Linear` oscillator: `yield self.value` then, when the increment is
nonzero, `self.value = min(self.max_value, max(self.min_value, self.value +
self.increment))`.  `Linear.sample ... n` is the n-th yielded value. -/
def Linear.sample (startlevel increment min_value max_value : ℚ) : ℕ → ℚ
  | 0 => startlevel
  | n + 1 =>
    let v := Linear.sample startlevel increment min_value max_value n
    if increment ≠ 0 then min max_value (max min_value (v + increment)) else v

/-- `WaveSynth.__linear`: `num_samples = int(duration*samplerate)`;
`increment = (finish_amp - start_amp) / (num_samples - 1)` (a `ZeroDivisionError`
when `num_samples = 1`); the `Linear` oscillator keeps its default clamp range
`[-1.0, 1.0]`. -/
def WaveSynth.linearOsc (samplerate : ℕ) (duration start_amp finish_amp : ℚ) :
    Option (ℕ → ℚ) :=
  let num_samples : ℤ := pyint (duration * (samplerate : ℚ))
  match pydiv (finish_amp - start_amp) ((num_samples : ℚ) - 1) with
  | none => none
  | some increment => some (Linear.sample start_amp increment (-1) 1)

/-- `WaveSynth.linear`: build the linear oscillator, then render it for the
duration. -/
def WaveSynth.linear (samplerate : ℕ) (duration start_amp finish_amp : ℚ) :
    Option (List ℤ) :=
  match WaveSynth.linearOsc samplerate duration start_amp finish_amp with
  | none => none
  | some wave => some (WaveSynth.render_sample samplerate duration wave)

/-- `WaveSynth.__check_and_get_scale`: asserts the Nyquist limit and the
amplitude/bias ranges (assertion failure modelled as `none`), and returns the
quantization scale `2^(samplewidth*8 - 1) - 1`. -/
def WaveSynth.check_and_get_scale (samplerate samplewidth : ℕ)
    (freq amplitude bias : ℚ) : Option ℚ :=
  if freq ≤ (samplerate : ℚ) / 2 ∧ 0 ≤ amplitude ∧ amplitude ≤ 1 ∧
      -1 ≤ bias ∧ bias ≤ 1 then
    some ((2 : ℚ) ^ (samplewidth * 8 - 1) - 1)
  else none

/-- `FastSquare.generator`: the accumulator `t` starts at `phase/frequency` and
gains `1/samplerate` per sample, so `t_n = phase/frequency + n/samplerate`;
the sample is `-amplitude` when `int(t*frequency*2) % 2` is nonzero, else
`+amplitude`, plus the bias. -/
def FastSquare.sample (frequency amplitude phase bias : ℚ) (samplerate : ℕ)
    (n : ℕ) : ℚ :=
  let t := phase / frequency + (n : ℚ) * (1 / (samplerate : ℚ))
  (if pyint (t * frequency * 2) % 2 ≠ 0 then -amplitude else amplitude) + bias

/-- `WaveSynth.square` without an FM LFO: width check from the constructor
(`samplewidth in (2, 4)`), parameter validation and scaling, then a rendered
`FastSquare`. -/
def WaveSynth.square (samplerate samplewidth : ℕ)
    (frequency duration amplitude phase bias : ℚ) : Option (List ℤ) :=
  if samplewidth = 2 ∨ samplewidth = 4 then
    match WaveSynth.check_and_get_scale samplerate samplewidth frequency amplitude bias with
    | none => none
    | some scale =>
      some (WaveSynth.render_sample samplerate duration
        (FastSquare.sample frequency (amplitude * scale) phase (bias * scale) samplerate))
  else none

/-- `OscillatorBase.delay`: for negative `seconds` the generator first consumes
`int(-samplerate*seconds)` source samples without yielding them, then yields
from the source; otherwise it yields `int(samplerate*seconds)` zeros and then
yields from the source. -/
def OscillatorBase.delay (samplerate : ℕ) (seconds : ℚ) (osc : ℕ → ℚ) : ℕ → ℚ :=
  if seconds < 0 then
    fun n => osc ((pyint (-(samplerate : ℚ) * seconds)).toNat + n)
  else
    fun n =>
      if n < (pyint ((samplerate : ℚ) * seconds)).toNat then 0
      else osc (n - (pyint ((samplerate : ℚ) * seconds)).toNat)

/-- `sys.float_info.min`, the smallest positive normal double, `2⁻¹⁰²²`. -/
def float_info_min : ℚ := 1 / 2 ^ 1022

/-- `sys.float_info.max`, the largest finite double, `2¹⁰²⁴ - 2⁹⁷¹`. -/
def float_info_max : ℚ := 2 ^ 1024 - 2 ^ 971

/-- `OscillatorBase.clip`: an unset minimum defaults to `sys.float_info.min`,
an unset maximum to `sys.float_info.max`; each sample becomes
`max(min(v, maximum), minimum)`. -/
def OscillatorBase.clip (minimum maximum : Option ℚ) (osc : ℕ → ℚ) : ℕ → ℚ :=
  fun n =>
    max (min (osc n) (maximum.getD float_info_max)) (minimum.getD float_info_min)

/-- `sys.float_info.epsilon`, `2⁻⁵²`. -/
def epsilonFloat : ℚ := 1 / 2 ^ 52

/-- The per-sample duty clamp shared by `Pulse.generator` and the PWM branch of
`FastPulse.generator`: `if pw <= 0: pw = epsilon` / `elif pw >= 1: pw = 1.0 - epsilon`. -/
def pwClamp (pw : ℚ) : ℚ :=
  if pw ≤ 0 then epsilonFloat else if 1 ≤ pw then 1 - epsilonFloat else pw

/-- The shared phase-continuous FM state of the FM-capable generators: before
sample `n` the state is `(t, phase_correction, freq_previous)`, with `t`
starting at 0 and growing by `inc` per sample, `phase_correction` starting at
`pc0`, and during sample `n` the code sets `freq = frequency*(1 + fm n)` and
`phase_correction += (freq_previous - freq)*t`. -/
def fmState {K : Type} [Field K] (frequency pc0 inc : K) (fm : ℕ → K) :
    ℕ → K × K × K
  | 0 => (0, pc0, frequency)
  | n + 1 =>
    let s := fmState frequency pc0 inc fm n
    let freq := frequency * (1 + fm n)
    (s.1 + inc, s.2.1 + (s.2.2 - freq) * s.1, freq)

/-- The oscillator argument of sample `n` of an FM-capable generator:
`t*freq + phase_correction` after the per-sample update of the correction. -/
def fmArg {K : Type} [Field K] (frequency pc0 inc : K) (fm : ℕ → K) (n : ℕ) : K :=
  let s := fmState frequency pc0 inc fm n
  let freq := frequency * (1 + fm n)
  s.1 * freq + (s.2.1 + (s.2.2 - freq) * s.1)

/-- `Pulse.generator` (FM-capable pulse): the duty stream is the PWM LFO if
given, else the constant `pulsewidth` (`itertools.repeat(pulsewidth)`); each
pulled duty value passes through the epsilon clamp; the argument `tt` follows
the FM recurrence with `increment = 1/samplerate` and initial correction
`phase`. -/
def Pulse.sample (frequency amplitude phase bias pulsewidth : ℚ) (fm : ℕ → ℚ)
    (pwm_lfo : Option (ℕ → ℚ)) (samplerate : ℕ) (n : ℕ) : ℚ :=
  let pwm := pwm_lfo.getD fun _ => pulsewidth
  let pw := pwClamp (pwm n)
  let tt := fmArg frequency phase (1 / (samplerate : ℚ)) fm n
  (if pyfract tt < pw then amplitude else -amplitude) + bias

/-- `FastPulse.generator`: with a PWM LFO the pulled duty value passes through
the epsilon clamp; without one the fixed `pulsewidth` is compared directly (no
clamp).  `t_n = phase/frequency + n/samplerate`. -/
def FastPulse.sample (frequency amplitude phase bias pulsewidth : ℚ)
    (pwm_lfo : Option (ℕ → ℚ)) (samplerate : ℕ) (n : ℕ) : ℚ :=
  match pwm_lfo with
  | some pwm =>
    let t := phase / frequency + (n : ℚ) * (1 / (samplerate : ℚ))
    let pw := pwClamp (pwm n)
    (if pyfract (t * frequency) < pw then amplitude else -amplitude) + bias
  | none =>
    let t := phase / frequency + (n : ℚ) * (1 / (samplerate : ℚ))
    (if pyfract (t * frequency) < pulsewidth then amplitude else -amplitude) + bias

/-- `Sine.generator` (FM-capable): argument in radians with
`increment = 2π/samplerate` and initial correction `phase*2π`; the sample is
`sin(arg)*amplitude + bias`. -/
noncomputable def Sine.sample (frequency amplitude phase bias : ℚ)
    (samplerate : ℕ) (fm : ℕ → ℚ) (n : ℕ) : ℝ :=
  Real.sin (fmArg (frequency : ℝ) ((phase : ℝ) * (2 * Real.pi))
      (2 * Real.pi / (samplerate : ℝ)) (fun i => ((fm i : ℚ) : ℝ)) n) *
    (amplitude : ℝ) + (bias : ℝ)

/-- `Harmonics.generator`: each sample recomputes
`num_harmonics = min(self.num_harmonics, int(samplerate/2/frequency))`, uses the
same radian FM argument `q` as `Sine`, and sums `sin(q*k)/k` over the selected
harmonic set (`k = 1..num_harmonics` weighted by an extra `1/2` in the default
branch; odd `k` only; or a fixed `0.7·sin(q)` plus even `k ≥ 2`). -/
noncomputable def Harmonics.sample (frequency : ℚ) (num_harmonics : ℕ)
    (amplitude phase bias : ℚ) (only_even only_odd : Bool) (samplerate : ℕ)
    (fm : ℕ → ℚ) (n : ℕ) : ℝ :=
  let nh := (min (num_harmonics : ℤ) (pyint ((samplerate : ℚ) / 2 / frequency))).toNat
  let q := fmArg (frequency : ℝ) ((phase : ℝ) * (2 * Real.pi))
    (2 * Real.pi / (samplerate : ℝ)) (fun i => ((fm i : ℚ) : ℝ)) n
  let h : ℝ :=
    if only_odd then
      ∑ i ∈ Finset.range nh, Real.sin (q * (2 * (i : ℝ) + 1)) / (2 * (i : ℝ) + 1)
    else if only_even then
      Real.sin q * 0.7 +
        ∑ i ∈ Finset.range (nh - 1), Real.sin (q * (2 * (i : ℝ) + 2)) / (2 * (i : ℝ) + 2)
    else
      ∑ i ∈ Finset.range nh, Real.sin (q * ((i : ℝ) + 1)) / ((i : ℝ) + 1) / 2
  h * (amplitude : ℝ) + (bias : ℝ)

/-- `key_freq`: the note frequency of a piano key,
`2^((key_number - 49)/12) * a4`. -/
noncomputable def key_freq (key_number : ℤ) (a4 : ℝ) : ℝ :=
  (2 : ℝ) ^ (((key_number : ℝ) - 49) / 12) * a4

/-- `EchoingOscillator.__init__`'s treatment of `amount`: when `decay < 1`,
`amount = int(min(amount, log(0.000001, decay)))` (`math.log` raises for a
nonpositive base, modelled as `none`); otherwise `amount` is kept. -/
noncomputable def EchoingOscillator.clampedAmount (amount : ℤ) (decay : ℚ) :
    Option ℤ :=
  if decay < 1 then
    if decay ≤ 0 then none
    else some (pyint (min ((amount : ℝ)) (Real.logb (decay : ℝ) (1 / 1000000))))
  else some amount

/-- One ramp loop of `OscillatorBase.envelope`'s wrapper generator:
`while time < limit: yield next(oscillator)*amp; amp += ampChange; time += increment`.
The source is threaded as a cursor; the sustain loop is this loop with a zero
amp change.  The conjunct `0 < inc` is a termination guard only: the source
always has `inc = 1/samplerate > 0`. -/
def envLoop (src : ℕ → ℚ) (inc limit : ℚ) (cursor : ℕ) (time amp ampChange : ℚ) :
    List ℚ × ℕ × ℚ × ℚ :=
  if h : 0 < inc ∧ time < limit then
    let rest := envLoop src inc limit (cursor + 1) (time + inc) (amp + ampChange) ampChange
    (src cursor * amp :: rest.1, rest.2)
  else ([], cursor, time, amp)
termination_by (⌈(limit - time) / inc⌉).toNat
decreasing_by
  obtain ⟨hi, ht⟩ := h
  have e1 : (limit - (time + inc)) / inc = (limit - time) / inc - 1 := by
    rw [show limit - (time + inc) = limit - time - inc by ring, sub_div,
      div_self (ne_of_gt hi)]
  have e2 : ⌈(limit - time) / inc - 1⌉ = ⌈(limit - time) / inc⌉ - 1 :=
    Int.ceil_sub_one _
  have hpos : 0 < ⌈(limit - time) / inc⌉ :=
    Int.ceil_pos.mpr (div_pos (by linarith) hi)
  rw [e1, e2]
  omega

/-- Attack segment of one envelope pass: skipped when `attack` is zero
(Python's `if attack:`), else `amp_change = 1/attack*increment` and the ramp
loop from `time = 0`, `amp = 0`.  Returns the yields, the cursor and the time. -/
def envAttack (src : ℕ → ℚ) (inc attack : ℚ) (cursor : ℕ) :
    Option (List ℚ × ℕ × ℚ) :=
  if attack = 0 then some ([], cursor, 0)
  else
    match pydiv 1 attack with
    | none => none
    | some invA =>
      let r := envLoop src inc attack cursor 0 0 (invA * inc)
      some (r.1, r.2.1, r.2.2.1)

/-- Decay segment: skipped when `decay` is zero, else `amp = 1.0`,
`amp_change = (sustain_level - 1)/decay*increment` and the ramp loop up to
`end_time_decay`. -/
def envDecay (src : ℕ → ℚ) (inc decay sustain_level end_time_decay : ℚ)
    (cursor : ℕ) (time : ℚ) : Option (List ℚ × ℕ × ℚ) :=
  if decay = 0 then some ([], cursor, time)
  else
    match pydiv (sustain_level - 1) decay with
    | none => none
    | some q =>
      let r := envLoop src inc end_time_decay cursor time 1 (q * inc)
      some (r.1, r.2.1, r.2.2.1)

/-- Sustain segment: `while time < end_time_sustain: yield
next(oscillator)*sustain_level`, i.e. the ramp loop with constant amp. -/
def envSustain (src : ℕ → ℚ) (inc end_time_sustain sustain_level : ℚ)
    (cursor : ℕ) (time : ℚ) : List ℚ × ℕ × ℚ :=
  let r := envLoop src inc end_time_sustain cursor time sustain_level 0
  (r.1, r.2.1, r.2.2.1)

/-- Release segment: skipped when `release` is zero, else `amp = sustain_level`,
`amp_change = (-sustain_level)/release*increment`, the ramp loop up to
`end_time_release`, and one extra `yield next(oscillator)*amp` when the final
amp is still positive. -/
def envRelease (src : ℕ → ℚ) (inc release sustain_level end_time_release : ℚ)
    (cursor : ℕ) (time : ℚ) : Option (List ℚ × ℕ) :=
  if release = 0 then some ([], cursor)
  else
    match pydiv (-sustain_level) release with
    | none => none
    | some q =>
      let r := envLoop src inc end_time_release cursor time sustain_level (q * inc)
      if 0 < r.2.2.2 then some (r.1 ++ [src r.2.1 * r.2.2.2], r.2.1 + 1)
      else some (r.1, r.2.1)

/-- One pass of `OscillatorBase.envelope`'s wrapper (the body of its
`while True:`): the four ADSR segments in order, starting at `time = 0.0` with
`increment = 1/samplerate`.  Returns the yielded samples of the pass and the
final source cursor.  (With `cycle` the generator repeats this pass; with
`not stop_at_end` it then yields `0.0` forever, pulling nothing.) -/
def envPass (src : ℕ → ℚ) (samplerate attack decay sustain sustain_level release : ℚ)
    (cursor : ℕ) : Option (List ℚ × ℕ) :=
  let end_time_decay := attack + decay
  let end_time_sustain := end_time_decay + sustain
  let end_time_release := end_time_sustain + release
  let increment := 1 / samplerate
  match envAttack src increment attack cursor with
  | none => none
  | some (l1, c1, t1) =>
    match envDecay src increment decay sustain_level end_time_decay c1 t1 with
    | none => none
    | some (l2, c2, t2) =>
      let s3 := envSustain src increment end_time_sustain sustain_level c2 t2
      match envRelease src increment release sustain_level end_time_release s3.2.1 s3.2.2 with
      | none => none
      | some (l4, c4) => some (l1 ++ l2 ++ s3.1 ++ l4, c4)

/-- The number of iterations of a ramp loop `while time < limit` stepping by
`inc > 0`. -/
def loopCount (inc limit time : ℚ) : ℕ :=
  (⌈(limit - time) / inc⌉).toNat

/-- The gain sequence of a ramp loop: `amp`, `amp + ampChange`, ... -/
def rampGains (amp ampChange : ℚ) : ℕ → List ℚ
  | 0 => []
  | n + 1 => amp :: rampGains (amp + ampChange) ampChange n

/-- Multiply a gain list pointwise into the source stream starting at a cursor:
entry `j` is `src (c + j) * gains[j]` — one pull per output sample. -/
def applyGains (src : ℕ → ℚ) : ℕ → List ℚ → List ℚ
  | _, [] => []
  | c, g :: gs => src c * g :: applyGains src (c + 1) gs

theorem pyint_of_nonneg {K : Type} [LinearOrderedField K] [FloorRing K]
    {x : K} (h : 0 ≤ x) : pyint x = ⌊x⌋ :=
  if_pos h

theorem pyint_intCast {K : Type} [LinearOrderedField K] [FloorRing K] (m : ℤ) :
    pyint ((m : K)) = m := by
  unfold pyint
  split <;> simp

/-- Claim C9: `key_freq` computes `2^((key_number - 49)/12) * a4`; key 49 (A4)
gives exactly 440.0, and key 40 (C4) gives 261.626 Hz to within `10⁻³`. -/
theorem key_freq_spec :
    (∀ (k : ℤ) (a4 : ℝ), key_freq k a4 = (2 : ℝ) ^ (((k : ℝ) - 49) / 12) * a4)
    ∧ key_freq 49 440 = 440
    ∧ |key_freq 40 440 - 261.626| < 1 / 1000 := by
  refine ⟨fun _ _ => rfl, ?_, ?_⟩
  · have h0 : ((((49 : ℤ) : ℝ)) - 49) / 12 = 0 := by norm_num
    rw [key_freq, h0, Real.rpow_zero, one_mul]
  · have he : ((((40 : ℤ) : ℝ)) - 49) / 12 = -(3 / 4) := by norm_num
    rw [key_freq, he, Real.rpow_neg (by norm_num : (0 : ℝ) ≤ 2)]
    have hxpos : (0 : ℝ) < (2 : ℝ) ^ ((3 : ℝ) / 4) :=
      Real.rpow_pos_of_pos (by norm_num) _
    have hx4 : ((2 : ℝ) ^ ((3 : ℝ) / 4)) ^ (4 : ℕ) = 8 := by
      rw [← Real.rpow_natCast ((2 : ℝ) ^ ((3 : ℝ) / 4)) 4,
        ← Real.rpow_mul (by norm_num : (0 : ℝ) ≤ 2)]
      norm_num
    have hlb : (1.681785 : ℝ) < (2 : ℝ) ^ ((3 : ℝ) / 4) := by
      by_contra hc
      push_neg at hc
      have hb : ((2 : ℝ) ^ ((3 : ℝ) / 4)) ^ (4 : ℕ) ≤ (1.681785 : ℝ) ^ (4 : ℕ) :=
        pow_le_pow_left₀ hxpos.le hc 4
      rw [hx4] at hb
      norm_num at hb
    have hub : (2 : ℝ) ^ ((3 : ℝ) / 4) < 1.681795 := by
      by_contra hc
      push_neg at hc
      have hb : (1.681795 : ℝ) ^ (4 : ℕ) ≤ ((2 : ℝ) ^ ((3 : ℝ) / 4)) ^ (4 : ℕ) :=
        pow_le_pow_left₀ (by norm_num) hc 4
      rw [hx4] at hb
      norm_num at hb
    have h1 : ((2 : ℝ) ^ ((3 : ℝ) / 4))⁻¹ * 440 < 261.627 := by
      rw [inv_mul_eq_div, div_lt_iff₀ hxpos]
      nlinarith [hlb]
    have h2 : (261.625 : ℝ) < ((2 : ℝ) ^ ((3 : ℝ) / 4))⁻¹ * 440 := by
      rw [inv_mul_eq_div, lt_div_iff₀ hxpos]
      nlinarith [hub]
    rw [abs_lt]
    constructor <;> [linarith; linarith]

/-- Claim C7 (code bug): with only a maximum bound, `clip` does not pass
negative values through — the unset minimum defaults to `sys.float_info.min`,
the smallest *positive* double `2⁻¹⁰²²` (not `-sys.float_info.max`), so the
sample `-1/2` is clipped up to `2⁻¹⁰²²` instead of surviving unchanged. -/
theorem clip_minimum_default_bug :
    OscillatorBase.clip none (some 1) (fun _ => -(1 / 2)) 0 = 1 / 2 ^ 1022
    ∧ (1 / 2 ^ 1022 : ℚ) ≠ -(1 / 2) := by
  constructor
  · show max (min (-(1 / 2) : ℚ) ((some (1 : ℚ)).getD float_info_max))
        ((none : Option ℚ).getD float_info_min) = 1 / 2 ^ 1022
    rw [Option.getD_some, Option.getD_none, float_info_min]
    rw [min_eq_left (by norm_num),
      max_eq_right (le_trans (by norm_num) (by positivity : (0 : ℚ) ≤ 1 / 2 ^ 1022))]
  · exact ne_of_gt (lt_of_lt_of_le (by norm_num) (by positivity : (0 : ℚ) ≤ 1 / 2 ^ 1022))

/-- Claim C4: when `decay < 1` (and positive, so that `math.log` is defined),
the echo tap count becomes `min(amount, ⌊log_decay 10⁻⁶⌋)`; when `decay ≥ 1`
the supplied amount is kept unchanged. -/
theorem echo_amount_cap (amount : ℤ) (decay : ℚ) :
    (0 < decay → decay < 1 →
      EchoingOscillator.clampedAmount amount decay =
        some (min amount ⌊Real.logb (decay : ℝ) (1 / 1000000)⌋))
    ∧ (1 ≤ decay → EchoingOscillator.clampedAmount amount decay = some amount) := by
  constructor
  · intro h0 h1
    rw [EchoingOscillator.clampedAmount, if_pos h1, if_neg (not_le.mpr h0)]
    have hL : 0 < Real.logb (decay : ℝ) (1 / 1000000) := by
      rw [Real.logb]
      exact div_pos_iff.mpr (Or.inr ⟨Real.log_neg (by norm_num) (by norm_num),
        Real.log_neg (by exact_mod_cast h0) (by exact_mod_cast h1)⟩)
    rcases le_or_lt ((amount : ℝ)) (Real.logb (decay : ℝ) (1 / 1000000)) with hc | hc
    · rw [min_eq_left hc, pyint_intCast,
        min_eq_left (Int.le_floor.mpr hc)]
    · rw [min_eq_right hc.le, pyint_of_nonneg hL.le, min_eq_right ?_]
      calc ⌊Real.logb (decay : ℝ) (1 / 1000000)⌋
          ≤ ⌊((amount : ℝ))⌋ := Int.floor_le_floor hc.le
        _ = amount := Int.floor_intCast amount
  · intro h1
    rw [EchoingOscillator.clampedAmount, if_neg (not_lt.mpr h1)]

/-- Witness for C4 at `amount = 10`: a decaying echo with `decay = 1/2` is
capped, a growing echo with `decay = 2` keeps its amount. -/
theorem echo_amount_cap_witness :
    EchoingOscillator.clampedAmount 10 (1 / 2) =
      some (min 10 ⌊Real.logb (((1 : ℚ) / 2 : ℚ) : ℝ) (1 / 1000000)⌋)
    ∧ EchoingOscillator.clampedAmount 10 2 = some 10 :=
  ⟨(echo_amount_cap 10 (1 / 2)).1 (by norm_num) (by norm_num),
    (echo_amount_cap 10 2).2 (by norm_num)⟩

/-- Claim C5: a nonnegative delay emits `⌊seconds·samplerate⌋` zeros and then
relays the source unchanged; a negative delay discards `⌊-seconds·samplerate⌋`
source samples without emitting them and relays the rest unchanged. -/
theorem delay_spec (samplerate : ℕ) (seconds : ℚ) (osc : ℕ → ℚ) :
    (0 ≤ seconds →
      (∀ n, n < (⌊seconds * (samplerate : ℚ)⌋).toNat →
        OscillatorBase.delay samplerate seconds osc n = 0)
      ∧ (∀ n, OscillatorBase.delay samplerate seconds osc
          ((⌊seconds * (samplerate : ℚ)⌋).toNat + n) = osc n))
    ∧ (seconds < 0 →
      ∀ n, OscillatorBase.delay samplerate seconds osc n =
        osc ((⌊-seconds * (samplerate : ℚ)⌋).toNat + n)) := by
  constructor
  · intro hs
    have hnn : ¬ seconds < 0 := not_lt.mpr hs
    have hpy : pyint ((samplerate : ℚ) * seconds) = ⌊seconds * (samplerate : ℚ)⌋ := by
      rw [pyint_of_nonneg (mul_nonneg (Nat.cast_nonneg _) hs), mul_comm]
    constructor
    · intro n hn
      simp only [OscillatorBase.delay, if_neg hnn, hpy, if_pos hn]
    · intro n
      simp only [OscillatorBase.delay, if_neg hnn, hpy,
        if_neg (by omega : ¬ (⌊seconds * (samplerate : ℚ)⌋).toNat + n <
          (⌊seconds * (samplerate : ℚ)⌋).toNat)]
      congr 1
      omega
  · intro hs n
    have hrw : -(samplerate : ℚ) * seconds = -seconds * (samplerate : ℚ) := by ring
    have hpy : pyint (-(samplerate : ℚ) * seconds) = ⌊-seconds * (samplerate : ℚ)⌋ := by
      rw [hrw, pyint_of_nonneg (mul_nonneg (by linarith) (Nat.cast_nonneg _))]
    simp only [OscillatorBase.delay, if_pos hs, hpy]

/-- Witness for C5 at `samplerate = 2`: one second of delay yields zeros for the
first two samples and then the source; minus one second skips two source
samples. -/
theorem delay_spec_witness :
    OscillatorBase.delay 2 1 (fun n => (n : ℚ)) 1 = 0
    ∧ OscillatorBase.delay 2 1 (fun n => (n : ℚ))
        ((⌊(1 : ℚ) * ((2 : ℕ) : ℚ)⌋).toNat + 3) = ((3 : ℕ) : ℚ)
    ∧ OscillatorBase.delay 2 (-1) (fun n => (n : ℚ)) 0 =
        ((⌊-(-1 : ℚ) * ((2 : ℕ) : ℚ)⌋).toNat + 0 : ℕ) := by
  have hfl : ⌊(1 : ℚ) * ((2 : ℕ) : ℚ)⌋ = 2 := by
    rw [show (1 : ℚ) * ((2 : ℕ) : ℚ) = ((2 : ℤ) : ℚ) by push_cast; ring,
      Int.floor_intCast]
  refine ⟨?_, ?_, ?_⟩
  · exact (delay_spec 2 1 (fun n => (n : ℚ))).1 (by norm_num) |>.1 1 (by rw [hfl]; norm_num)
  · exact (delay_spec 2 1 (fun n => (n : ℚ))).1 (by norm_num) |>.2 3
  · exact (delay_spec 2 (-1) (fun n => (n : ℚ))).2 (by norm_num) 0

/-- Claim C10: when `int(duration*samplerate) = 1` the facade's linear
operation dies in `__linear` with a `ZeroDivisionError` computing
`(finish_amp - start_amp) / (num_samples - 1)`, before any sample is
rendered. -/
theorem linear_one_sample_div_by_zero (samplerate : ℕ)
    (duration start_amp finish_amp : ℚ)
    (h : pyint (duration * (samplerate : ℚ)) = 1) :
    WaveSynth.linearOsc samplerate duration start_amp finish_amp = none
    ∧ WaveSynth.linear samplerate duration start_amp finish_amp = none := by
  have hosc : WaveSynth.linearOsc samplerate duration start_amp finish_amp = none := by
    simp only [WaveSynth.linearOsc, h, pydiv]
    norm_num
  exact ⟨hosc, by rw [WaveSynth.linear, hosc]⟩

/-- Witness for C10: a tenth of a second at 10 Hz is exactly one sample, and
construction fails. -/
theorem linear_one_sample_div_by_zero_witness :
    WaveSynth.linearOsc 10 (1 / 10) 0 1 = none
    ∧ WaveSynth.linear 10 (1 / 10) 0 1 = none :=
  linear_one_sample_div_by_zero 10 (1 / 10) 0 1 (by
    rw [show (1 / 10 : ℚ) * ((10 : ℕ) : ℚ) = ((1 : ℤ) : ℚ) by push_cast; ring,
      pyint_intCast])

theorem renderLoop_length {K : Type} [LinearOrderedField K] [FloorRing K]
    (wave : ℕ → K) : ∀ (n i : ℕ), (renderLoop wave i n).length = n := by
  intro n
  induction n with
  | zero => intro i; rfl
  | succ n ih => intro i; simp [renderLoop, ih]

theorem renderLoop_getD {K : Type} [LinearOrderedField K] [FloorRing K]
    (wave : ℕ → K) : ∀ (n i j : ℕ), j < n →
      (renderLoop wave i n).getD j 0 = pyint (wave (i + j)) := by
  intro n
  induction n with
  | zero => intro i j hj; omega
  | succ n ih =>
    intro i j hj
    match j with
    | 0 => simp [renderLoop]
    | j + 1 =>
      have := ih (i + 1) j (by omega)
      simpa [renderLoop, Nat.add_assoc, Nat.add_comm 1 j] using this

theorem renderLoop_mem {K : Type} [LinearOrderedField K] [FloorRing K]
    (wave : ℕ → K) : ∀ (n i : ℕ) (x : ℤ), x ∈ renderLoop wave i n →
      ∃ j, x = pyint (wave j) := by
  intro n
  induction n with
  | zero => intro i x hx; simp [renderLoop] at hx
  | succ n ih =>
    intro i x hx
    rw [renderLoop, List.mem_cons] at hx
    rcases hx with hx | hx
    · exact ⟨i, hx⟩
    · exact ih (i + 1) x hx

/-- Claim C1 (amended): a finite render with nonnegative duration pulls exactly
`⌊duration·samplerate⌋` samples, sample `j` being the truncation of the `j`-th
value pulled from the wave — and the `linear` operation indeed reaches this
render whenever `int(duration·samplerate) ≠ 1` (the one-sample case instead
fails in construction, see the counterexample). -/
theorem render_sample_spec {K : Type} [LinearOrderedField K] [FloorRing K]
    (samplerate : ℕ) (duration : K) (wave : ℕ → K) (hd : 0 ≤ duration) :
    (WaveSynth.render_sample samplerate duration wave).length
      = (⌊duration * (samplerate : K)⌋).toNat
    ∧ (∀ j, j < (WaveSynth.render_sample samplerate duration wave).length →
        (WaveSynth.render_sample samplerate duration wave).getD j 0 = pyint (wave j))
    ∧ (∀ start_amp finish_amp d : ℚ, pyint (d * (samplerate : ℚ)) ≠ 1 →
        (WaveSynth.linear samplerate d start_amp finish_amp).isSome) := by
  have hpy : pyint (duration * (samplerate : K)) = ⌊duration * (samplerate : K)⌋ :=
    pyint_of_nonneg (mul_nonneg hd (Nat.cast_nonneg _))
  refine ⟨?_, ?_, ?_⟩
  · rw [WaveSynth.render_sample, renderLoop_length, hpy]
  · intro j hj
    rw [WaveSynth.render_sample] at hj ⊢
    rw [renderLoop_length] at hj
    have := renderLoop_getD wave ((pyint (duration * (samplerate : K))).toNat) 0 j hj
    simpa using this
  · intro s f d hne
    have h2 : ((pyint (d * ((samplerate : ℕ) : ℚ)) : ℚ) - 1) ≠ 0 := by
      intro hz
      exact hne (by exact_mod_cast sub_eq_zero.mp hz)
    simp only [WaveSynth.linear, WaveSynth.linearOsc, pydiv, if_neg h2]
    rfl

/-- Witness for C1 at `samplerate = 2`, `duration = 3/2`: three samples, the
second the truncation of the second pull, and a linear render of duration 0 is
constructible. -/
theorem render_sample_spec_witness :
    (WaveSynth.render_sample 2 ((3 : ℚ) / 2) (fun _ => (5 : ℚ))).length
      = (⌊(3 : ℚ) / 2 * ((2 : ℕ) : ℚ)⌋).toNat
    ∧ (WaveSynth.render_sample 2 ((3 : ℚ) / 2) (fun _ => (5 : ℚ))).getD 1 0
      = pyint ((5 : ℚ))
    ∧ (WaveSynth.linear 2 0 0 1).isSome := by
  obtain ⟨h1, h2, h3⟩ :=
    render_sample_spec 2 ((3 : ℚ) / 2) (fun _ => (5 : ℚ)) (by norm_num)
  refine ⟨h1, ?_, h3 0 1 0 (by rw [show (0 : ℚ) * ((2 : ℕ) : ℚ) = ((0 : ℤ) : ℚ)
    by push_cast; ring, pyint_intCast]; norm_num)⟩
  refine h2 1 ?_
  rw [h1, show (3 : ℚ) / 2 * ((2 : ℕ) : ℚ) = ((3 : ℤ) : ℚ) by push_cast; ring,
    Int.floor_intCast]
  norm_num

/-- Counterexample for C1 as frozen: the facade's `linear` operation at
`duration = 1/10`, `samplerate = 10` (so `⌊duration·samplerate⌋ = 1`) renders
no buffer at all — construction raises `ZeroDivisionError` — rather than a
buffer of exactly one sample. -/
theorem render_sample_linear_cx : WaveSynth.linear 10 (1 / 10) 0 1 = none := by
  have h : pyint ((1 / 10 : ℚ) * ((10 : ℕ) : ℚ)) = 1 := by
    rw [show (1 / 10 : ℚ) * ((10 : ℕ) : ℚ) = ((1 : ℤ) : ℚ) by push_cast; ring,
      pyint_intCast]
  simp only [WaveSynth.linear, WaveSynth.linearOsc, h, pydiv]
  norm_num

/-- Claim C8: every rendered sample of a facade-built perfect square (no FM,
no harmonics) is the truncation of `+amplitude·scale + bias·scale` or of
`-amplitude·scale + bias·scale` — never an intermediate value. -/
theorem square_two_levels (samplerate samplewidth : ℕ)
    (frequency duration amplitude phase bias : ℚ)
    (hw : samplewidth = 2 ∨ samplewidth = 4)
    (hf : 0 < frequency)
    (hnyq : frequency ≤ (samplerate : ℚ) / 2)
    (ha0 : 0 ≤ amplitude) (ha1 : amplitude ≤ 1)
    (hb0 : -1 ≤ bias) (hb1 : bias ≤ 1) :
    ∀ x ∈ (WaveSynth.square samplerate samplewidth frequency duration
        amplitude phase bias).getD [],
      x = pyint (amplitude * ((2 : ℚ) ^ (samplewidth * 8 - 1) - 1)
            + bias * ((2 : ℚ) ^ (samplewidth * 8 - 1) - 1))
      ∨ x = pyint (-(amplitude * ((2 : ℚ) ^ (samplewidth * 8 - 1) - 1))
            + bias * ((2 : ℚ) ^ (samplewidth * 8 - 1) - 1)) := by
  intro x hx
  rw [WaveSynth.square, if_pos hw, WaveSynth.check_and_get_scale,
    if_pos ⟨hnyq, ha0, ha1, hb0, hb1⟩, Option.getD_some,
    WaveSynth.render_sample] at hx
  obtain ⟨j, hj⟩ := renderLoop_mem _ _ _ x hx
  rw [hj, FastSquare.sample]
  by_cases hc : pyint ((phase / frequency + (j : ℚ) * (1 / (samplerate : ℚ)))
      * frequency * 2) % 2 ≠ 0
  · right
    rw [if_pos hc]
  · left
    rw [if_neg hc]

/-- Witness for C8: two samples of a 1 Hz square at 4 Hz, 16-bit; the value
32767 is one of the two quantized levels. -/
theorem square_two_levels_witness :
    (32767 : ℤ) = pyint ((1 : ℚ) * ((2 : ℚ) ^ (2 * 8 - 1) - 1)
        + 0 * ((2 : ℚ) ^ (2 * 8 - 1) - 1))
    ∨ (32767 : ℤ) = pyint (-((1 : ℚ) * ((2 : ℚ) ^ (2 * 8 - 1) - 1))
        + 0 * ((2 : ℚ) ^ (2 * 8 - 1) - 1)) := by
  refine square_two_levels 4 2 1 (1 / 2) 1 0 0 (Or.inl rfl) (by norm_num)
    (by norm_num) (by norm_num) (by norm_num) (by norm_num) (by norm_num) 32767 ?_
  rw [WaveSynth.square, if_pos (Or.inl rfl), WaveSynth.check_and_get_scale,
    if_pos (by norm_num), Option.getD_some]
  have hpy : pyint ((1 / 2 : ℚ) * ((4 : ℕ) : ℚ)) = 2 := by
    rw [show (1 / 2 : ℚ) * ((4 : ℕ) : ℚ) = ((2 : ℤ) : ℚ) by push_cast; ring,
      pyint_intCast]
  rw [WaveSynth.render_sample, hpy]
  show (32767 : ℤ) ∈ [pyint (FastSquare.sample 1 (1 * ((2 : ℚ) ^ (2 * 8 - 1) - 1)) 0
      (0 * ((2 : ℚ) ^ (2 * 8 - 1) - 1)) 4 0),
    pyint (FastSquare.sample 1 (1 * ((2 : ℚ) ^ (2 * 8 - 1) - 1)) 0
      (0 * ((2 : ℚ) ^ (2 * 8 - 1) - 1)) 4 1)]
  have h0 : FastSquare.sample 1 (1 * ((2 : ℚ) ^ (2 * 8 - 1) - 1)) 0
      (0 * ((2 : ℚ) ^ (2 * 8 - 1) - 1)) 4 0 = ((32767 : ℤ) : ℚ) := by
    rw [FastSquare.sample]
    norm_num [pyint, Int.floor_zero]
  exact List.mem_cons.mpr (Or.inl (by rw [h0, pyint_intCast]))

/-- Claim C6 (amended): the per-sample duty factor that flows through the PWM
stream — always the case for the FM-capable `Pulse`, whose fixed `pulsewidth`
is fed through a constant PWM stream, and for `FastPulse` when a PWM source is
supplied — is forced into the open interval `(0, 1)`: values `≤ 0` become
`epsilon`, values `≥ 1` become `1 - epsilon`, values strictly between 0 and 1
pass through unchanged (so they may lie below `epsilon`).  `FastPulse` with a
fixed `pulsewidth` applies no clamp at all. -/
theorem pulse_duty_clamp (pw : ℚ) :
    0 < pwClamp pw ∧ pwClamp pw < 1
    ∧ (pw ≤ 0 → pwClamp pw = epsilonFloat)
    ∧ (1 ≤ pw → pwClamp pw = 1 - epsilonFloat)
    ∧ (0 < pw → pw < 1 → pwClamp pw = pw)
    ∧ (∀ (frequency amplitude phase bias pulsewidth : ℚ) (fm : ℕ → ℚ)
        (samplerate n : ℕ),
        Pulse.sample frequency amplitude phase bias pulsewidth fm none samplerate n =
          (if pyfract (fmArg frequency phase (1 / (samplerate : ℚ)) fm n)
              < pwClamp pulsewidth then amplitude else -amplitude) + bias)
    ∧ (∀ (frequency amplitude phase bias pulsewidth : ℚ) (samplerate n : ℕ),
        FastPulse.sample frequency amplitude phase bias pulsewidth none samplerate n =
          (if pyfract ((phase / frequency + (n : ℚ) * (1 / (samplerate : ℚ)))
              * frequency) < pulsewidth then amplitude else -amplitude) + bias) := by
  have hcore : 0 < pwClamp pw ∧ pwClamp pw < 1 := by
    rw [pwClamp]
    rcases le_or_lt pw 0 with h0 | h0
    · rw [if_pos h0]
      constructor <;> norm_num [epsilonFloat]
    · rw [if_neg (not_le.mpr h0)]
      rcases le_or_lt 1 pw with h1 | h1
      · rw [if_pos h1]
        constructor <;> norm_num [epsilonFloat]
      · rw [if_neg (not_le.mpr h1)]
        exact ⟨h0, h1⟩
  refine ⟨hcore.1, hcore.2, ?_, ?_, ?_, fun _ _ _ _ _ _ _ _ => rfl,
    fun _ _ _ _ _ _ _ => rfl⟩
  · intro h0
    rw [pwClamp, if_pos h0]
  · intro h1
    rw [pwClamp, if_neg (by linarith), if_pos h1]
  · intro h0 h1
    rw [pwClamp, if_neg (not_le.mpr h0), if_neg (not_le.mpr h1)]

/-- Counterexample for C6 as frozen: the fast pulse with a fixed
`pulsewidth = 0` (no PWM source) emits `-amplitude + bias` at sample 0, while
the claimed clamp of the compared threshold into `(ε, 1-ε)` would have made
sample 0 high (`pyfract 0 = 0 < pwClamp 0`); moreover a PWM duty of `ε/2`
passes the clamp unchanged, which is below `ε` and so outside `(ε, 1-ε)`. -/
theorem pulse_duty_clamp_cx :
    FastPulse.sample 1 1 0 0 0 none 4 0 = -1
    ∧ pyfract ((0 : ℚ)) < pwClamp 0
    ∧ pwClamp (epsilonFloat / 2) = epsilonFloat / 2
    ∧ ¬ epsilonFloat < epsilonFloat / 2 := by
  refine ⟨?_, ?_, ?_, ?_⟩
  · rw [FastPulse.sample]
    norm_num [pyfract]
  · rw [pyfract, pwClamp, if_pos le_rfl]
    norm_num [epsilonFloat]
  · rw [pwClamp, if_neg (by norm_num [epsilonFloat]), if_neg (by norm_num [epsilonFloat])]
  · norm_num [epsilonFloat]

theorem fmArg_zero {K : Type} [Field K] (frequency pc0 inc : K) (fm : ℕ → K) :
    fmArg frequency pc0 inc fm 0 = pc0 := by
  simp [fmArg, fmState]

theorem floor_three_halves : ⌊(3 : ℚ) / 2⌋ = 1 := by
  rw [Int.floor_eq_iff]
  constructor <;> norm_num

/-- Claim C3 (amended): each pull of a Harmonics oscillator sums
`min(num_harmonics, ⌊samplerate/(2·frequency)⌋)` harmonics — harmonics above
Nyquist are silently dropped; with `frequency = samplerate/3` and
`num_harmonics = 10` only one harmonic survives, and the output equals a plain
sine of the same frequency, phase and bias with HALF the amplitude (the
default branch weights harmonic `k` by `1/k/2`, so the single surviving
harmonic carries weight 1/2). -/
theorem harmonics_nyquist_clamp (samplerate : ℕ) (amplitude phase bias : ℚ)
    (fm : ℕ → ℚ) (n : ℕ) (hr : 0 < samplerate) :
    (∀ (frequency : ℚ) (num_harmonics : ℕ), 0 < frequency →
      min (num_harmonics : ℤ) (pyint ((samplerate : ℚ) / 2 / frequency))
        = min (num_harmonics : ℤ) ⌊(samplerate : ℚ) / (2 * frequency)⌋)
    ∧ min (10 : ℤ) (pyint ((samplerate : ℚ) / 2 / ((samplerate : ℚ) / 3))) = 1
    ∧ Harmonics.sample ((samplerate : ℚ) / 3) 10 amplitude phase bias false false
        samplerate fm n
      = Sine.sample ((samplerate : ℚ) / 3) (amplitude / 2) phase bias samplerate
          fm n := by
  have hr' : ((samplerate : ℚ)) ≠ 0 := Nat.cast_ne_zero.mpr hr.ne'
  have key : (samplerate : ℚ) / 2 / ((samplerate : ℚ) / 3) = 3 / 2 := by
    field_simp
    ring_nf
  have h2 : min (10 : ℤ) (pyint ((samplerate : ℚ) / 2 / ((samplerate : ℚ) / 3))) = 1 := by
    rw [key, pyint_of_nonneg (by norm_num), floor_three_halves]
    norm_num
  refine ⟨?_, h2, ?_⟩
  · intro f nh hf
    rw [pyint_of_nonneg (div_nonneg (div_nonneg (Nat.cast_nonneg _) (by norm_num)) hf.le),
      div_div]
  · rw [Harmonics.sample, Sine.sample]
    simp only [Bool.false_eq_true, if_false, Nat.cast_ofNat]
    rw [h2]
    rw [show Int.toNat 1 = 1 from rfl, Finset.sum_range_one]
    push_cast
    ring

/-- Witness for C3 at `samplerate = 3`: the harmonic count collapses to 1 and
the Harmonics output coincides with the half-amplitude sine. -/
theorem harmonics_nyquist_clamp_witness :
    min (10 : ℤ) (pyint ((((3 : ℕ)) : ℚ) / 2 / ((((3 : ℕ)) : ℚ) / 3))) = 1
    ∧ Harmonics.sample ((((3 : ℕ)) : ℚ) / 3) 10 1 0 0 false false 3 (fun _ => 0) 0
      = Sine.sample ((((3 : ℕ)) : ℚ) / 3) (1 / 2) 0 0 3 (fun _ => 0) 0 := by
  obtain ⟨-, h2, h3⟩ := harmonics_nyquist_clamp 3 1 0 0 (fun _ => 0) 0 (by norm_num)
  exact ⟨h2, h3⟩

/-- Counterexample for C3 as frozen: at `samplerate = 3`, `frequency = 1 =
samplerate/3`, `num_harmonics = 10`, `amplitude = 1`, `phase = 1/4`,
`bias = 0`, no FM, sample 0 of the Harmonics oscillator is `1/2` while the
plain sine with the *same* amplitude gives `1` — the two differ, because the
surviving harmonic is weighted by `1/2`. -/
theorem harmonics_nyquist_cx :
    Harmonics.sample 1 10 1 (1 / 4) 0 false false 3 (fun _ => 0) 0
      ≠ Sine.sample 1 1 (1 / 4) 0 3 (fun _ => 0) 0 := by
  have hqr : (((1 : ℚ) / 4 : ℚ) : ℝ) * (2 * Real.pi) = Real.pi / 2 := by
    push_cast
    ring
  have hmin : min (((10 : ℕ)) : ℤ) (pyint ((((3 : ℕ)) : ℚ) / 2 / 1)) = 1 := by
    rw [show (((3 : ℕ)) : ℚ) / 2 / 1 = 3 / 2 by norm_num,
      pyint_of_nonneg (by norm_num), floor_three_halves]
    norm_num
  have hH : Harmonics.sample 1 10 1 (1 / 4) 0 false false 3 (fun _ => 0) 0 = 1 / 2 := by
    rw [Harmonics.sample]
    simp only [Bool.false_eq_true, if_false]
    rw [hmin, show Int.toNat 1 = 1 from rfl, Finset.sum_range_one, fmArg_zero, hqr]
    rw [show Real.pi / 2 * (((0 : ℕ) : ℝ) + 1) = Real.pi / 2 by push_cast; ring,
      Real.sin_pi_div_two]
    push_cast
    ring
  have hS : Sine.sample 1 1 (1 / 4) 0 3 (fun _ => 0) 0 = 1 := by
    rw [Sine.sample, fmArg_zero, hqr, Real.sin_pi_div_two]
    push_cast
    ring
  rw [hH, hS]
  norm_num

theorem loopCount_of_le {inc limit time : ℚ} (hinc : 0 < inc) (h : limit ≤ time) :
    loopCount inc limit time = 0 := by
  rw [loopCount]
  have hq : (limit - time) / inc ≤ 0 :=
    div_nonpos_iff.mpr (Or.inr ⟨by linarith, hinc.le⟩)
  exact Int.toNat_of_nonpos (Int.ceil_le.mpr (by exact_mod_cast hq))

theorem loopCount_succ {inc limit time : ℚ} (hinc : 0 < inc) (ht : time < limit) :
    loopCount inc limit time = loopCount inc limit (time + inc) + 1 := by
  rw [loopCount, loopCount]
  have e1 : (limit - (time + inc)) / inc = (limit - time) / inc - 1 := by
    rw [show limit - (time + inc) = limit - time - inc by ring, sub_div,
      div_self (ne_of_gt hinc)]
  rw [e1, Int.ceil_sub_one]
  have hpos : 0 < ⌈(limit - time) / inc⌉ :=
    Int.ceil_pos.mpr (div_pos (by linarith) hinc)
  omega

theorem loopCount_le {inc limit time : ℚ} (hinc : 0 < inc) :
    limit ≤ time + (loopCount inc limit time : ℚ) * inc := by
  rcases le_or_lt limit time with h | h
  · have hnn : (0 : ℚ) ≤ (loopCount inc limit time : ℚ) * inc :=
      mul_nonneg (Nat.cast_nonneg _) hinc.le
    linarith
  · rw [loopCount]
    have hx : 0 < (limit - time) / inc := div_pos (by linarith) hinc
    have hceil : 0 ≤ ⌈(limit - time) / inc⌉ := (Int.ceil_pos.mpr hx).le
    have hcast : ((⌈(limit - time) / inc⌉.toNat : ℕ) : ℚ)
        = ((⌈(limit - time) / inc⌉ : ℤ) : ℚ) := by
      exact_mod_cast Int.toNat_of_nonneg hceil
    rw [hcast]
    have hle : (limit - time) / inc ≤ ((⌈(limit - time) / inc⌉ : ℤ) : ℚ) := Int.le_ceil _
    have hmul : (limit - time) / inc * inc ≤ ((⌈(limit - time) / inc⌉ : ℤ) : ℚ) * inc :=
      mul_le_mul_of_nonneg_right hle hinc.le
    rw [div_mul_cancel₀ _ (ne_of_gt hinc)] at hmul
    linarith

theorem rampGains_length (ampChange : ℚ) : ∀ (n : ℕ) (amp : ℚ),
    (rampGains amp ampChange n).length = n := by
  intro n
  induction n with
  | zero => intro amp; rfl
  | succ n ih => intro amp; simp [rampGains, ih]

theorem applyGains_length (src : ℕ → ℚ) : ∀ (g : List ℚ) (c : ℕ),
    (applyGains src c g).length = g.length := by
  intro g
  induction g with
  | nil => intro c; rfl
  | cons a g ih => intro c; simp [applyGains, ih]

theorem applyGains_append (src : ℕ → ℚ) : ∀ (g1 g2 : List ℚ) (c : ℕ),
    applyGains src c (g1 ++ g2)
      = applyGains src c g1 ++ applyGains src (c + g1.length) g2 := by
  intro g1
  induction g1 with
  | nil => intro g2 c; simp [applyGains]
  | cons a g ih =>
    intro g2 c
    simp only [List.cons_append, List.append_eq, applyGains, ih g2 (c + 1),
      List.length_cons]
    rw [show c + 1 + g.length = c + (g.length + 1) from by omega]

theorem envLoop_eq (src : ℕ → ℚ) (inc limit : ℚ) (hinc : 0 < inc) :
    ∀ (n cursor : ℕ) (time amp ac : ℚ), loopCount inc limit time = n →
      envLoop src inc limit cursor time amp ac
        = (applyGains src cursor (rampGains amp ac n), cursor + n,
            time + (n : ℚ) * inc, amp + (n : ℚ) * ac) := by
  intro n
  induction n with
  | zero =>
    intro cursor time amp ac h0
    have hnl : ¬ time < limit := by
      intro ht
      rw [loopCount_succ hinc ht] at h0
      omega
    rw [envLoop, dif_neg (fun hc => hnl hc.2)]
    simp [rampGains, applyGains]
  | succ n ih =>
    intro cursor time amp ac hsucc
    have ht : time < limit := by
      by_contra hc
      push_neg at hc
      rw [loopCount_of_le hinc hc] at hsucc
      omega
    rw [envLoop, dif_pos ⟨hinc, ht⟩]
    have hrec : loopCount inc limit (time + inc) = n := by
      have := loopCount_succ hinc ht
      omega
    rw [ih (cursor + 1) (time + inc) (amp + ac) ac hrec]
    simp only [rampGains, applyGains, Prod.mk.injEq, true_and, eq_self_iff_true]
    refine ⟨by omega, by push_cast; ring, by push_cast; ring⟩

theorem envAttack_eq (src : ℕ → ℚ) (inc attack : ℚ) (c : ℕ) (hinc : 0 < inc) :
    envAttack src inc attack c
      = some (applyGains src c (rampGains 0 (1 / attack * inc) (loopCount inc attack 0)),
          c + loopCount inc attack 0, (loopCount inc attack 0 : ℚ) * inc) := by
  rcases eq_or_ne attack 0 with h | h
  · subst h
    rw [envAttack, if_pos rfl, loopCount_of_le hinc le_rfl]
    simp [rampGains, applyGains]
  · rw [envAttack, if_neg h]
    simp only [pydiv, if_neg h]
    rw [envLoop_eq src inc attack hinc (loopCount inc attack 0) c 0 0
      (1 / attack * inc) rfl]
    simp

theorem envDecay_eq (src : ℕ → ℚ) (inc decay sustain_level etd : ℚ) (c : ℕ) (t : ℚ)
    (hinc : 0 < inc) (hskip : decay = 0 → etd ≤ t) :
    envDecay src inc decay sustain_level etd c t
      = some (applyGains src c (rampGains 1 ((sustain_level - 1) / decay * inc)
            (loopCount inc etd t)),
          c + loopCount inc etd t, t + (loopCount inc etd t : ℚ) * inc) := by
  rcases eq_or_ne decay 0 with h | h
  · rw [envDecay, if_pos h, loopCount_of_le hinc (hskip h)]
    simp [rampGains, applyGains]
  · rw [envDecay, if_neg h]
    simp only [pydiv, if_neg h]
    rw [envLoop_eq src inc etd hinc (loopCount inc etd t) c t 1
      ((sustain_level - 1) / decay * inc) rfl]

theorem envSustain_eq (src : ℕ → ℚ) (inc ets sustain_level : ℚ) (c : ℕ) (t : ℚ)
    (hinc : 0 < inc) :
    envSustain src inc ets sustain_level c t
      = (applyGains src c (rampGains sustain_level 0 (loopCount inc ets t)),
          c + loopCount inc ets t, t + (loopCount inc ets t : ℚ) * inc) := by
  rw [envSustain,
    envLoop_eq src inc ets hinc (loopCount inc ets t) c t sustain_level 0 rfl]

theorem envRelease_eq (src : ℕ → ℚ) (inc release sustain_level etr : ℚ) (c : ℕ)
    (t : ℚ) (hinc : 0 < inc) (hrel : release ≠ 0) :
    envRelease src inc release sustain_level etr c t
      = some (applyGains src c (rampGains sustain_level (-sustain_level / release * inc)
            (loopCount inc etr t)
          ++ (if 0 < sustain_level
                + (loopCount inc etr t : ℚ) * (-sustain_level / release * inc)
              then [sustain_level
                + (loopCount inc etr t : ℚ) * (-sustain_level / release * inc)]
              else [])),
          c + loopCount inc etr t
            + (if 0 < sustain_level
                + (loopCount inc etr t : ℚ) * (-sustain_level / release * inc)
               then 1 else 0)) := by
  rw [envRelease, if_neg hrel]
  simp only [pydiv, if_neg hrel]
  rw [envLoop_eq src inc etr hinc (loopCount inc etr t) c t sustain_level
    (-sustain_level / release * inc) rfl]
  rw [applyGains_append, rampGains_length]
  rcases lt_or_le 0 (sustain_level
      + (loopCount inc etr t : ℚ) * (-sustain_level / release * inc)) with hpos | hpos
  · rw [if_pos hpos, if_pos hpos, if_pos hpos]
    simp [applyGains]
  · rw [if_neg (not_lt.mpr hpos), if_neg (not_lt.mpr hpos), if_neg (not_lt.mpr hpos)]
    simp [applyGains]

/-- Claim C2: in one pass of the ADSR envelope wrapper, every segment whose
duration parameter is zero is skipped entirely — it contributes no output
samples, pulls nothing, and (because the `amp_change` divisions sit behind the
zero guards) the pass never raises a division by zero, witnessed by the pass
always returning `some`.  The time entering sustain is at least
`attack + decay`, so a zero sustain also runs zero iterations.  Finally, one
source-independent gain list describes the whole pass: output `j` is
`src (c0 + j) * gains[j]` — the source is pulled exactly once per emitted
sample — and the final cursor is `c0 + gains.length`. -/
theorem envelope_pass_spec (samplerate attack decay sustain sustain_level release : ℚ)
    (c0 : ℕ) (hrate : 0 < samplerate) (ha : 0 ≤ attack) (hd : 0 ≤ decay)
    (hs : 0 ≤ sustain) (hr : 0 ≤ release) :
    (attack = 0 → ∀ (src : ℕ → ℚ) (c : ℕ),
      envAttack src (1 / samplerate) attack c = some ([], c, 0))
    ∧ (decay = 0 → ∀ (src : ℕ → ℚ) (c : ℕ) (t : ℚ),
      envDecay src (1 / samplerate) decay sustain_level (attack + decay) c t
        = some ([], c, t))
    ∧ (∀ (src : ℕ → ℚ) (c : ℕ) (l : List ℚ) (c1 : ℕ) (t1 : ℚ),
      envAttack src (1 / samplerate) attack c = some (l, c1, t1) → attack ≤ t1)
    ∧ (∀ (src : ℕ → ℚ) (c : ℕ) (t : ℚ) (l : List ℚ) (c2 : ℕ) (t2 : ℚ),
      attack ≤ t →
      envDecay src (1 / samplerate) decay sustain_level (attack + decay) c t
        = some (l, c2, t2) → attack + decay ≤ t2)
    ∧ (sustain = 0 → ∀ (src : ℕ → ℚ) (c : ℕ) (t : ℚ), attack + decay + sustain ≤ t →
      envSustain src (1 / samplerate) (attack + decay + sustain) sustain_level c t
        = ([], c, t))
    ∧ (release = 0 → ∀ (src : ℕ → ℚ) (c : ℕ) (t : ℚ),
      envRelease src (1 / samplerate) release sustain_level
        (attack + decay + sustain + release) c t = some ([], c))
    ∧ ∃ gains : List ℚ, ∀ src : ℕ → ℚ,
      envPass src samplerate attack decay sustain sustain_level release c0
        = some (applyGains src c0 gains, c0 + gains.length) := by
  have hinc : 0 < 1 / samplerate := by positivity
  refine ⟨?_, ?_, ?_, ?_, ?_, ?_, ?_⟩
  · intro h0 src c
    rw [envAttack, if_pos h0]
  · intro h0 src c t
    rw [envDecay, if_pos h0]
  · intro src c l c1 t1 hEq
    rw [envAttack_eq src (1 / samplerate) attack c hinc] at hEq
    simp only [Option.some.injEq, Prod.mk.injEq] at hEq
    obtain ⟨-, -, ht1⟩ := hEq
    have := @loopCount_le (1 / samplerate) attack 0 hinc
    linarith [ht1]
  · intro src c t l c2 t2 hat hEq
    rcases eq_or_ne decay 0 with h | h
    · rw [envDecay, if_pos h] at hEq
      simp only [Option.some.injEq, Prod.mk.injEq] at hEq
      obtain ⟨-, -, ht2⟩ := hEq
      rw [h, add_zero, ← ht2]
      exact hat
    · rw [envDecay_eq src (1 / samplerate) decay sustain_level (attack + decay) c t
        hinc (fun hh => absurd hh h)] at hEq
      simp only [Option.some.injEq, Prod.mk.injEq] at hEq
      obtain ⟨-, -, ht2⟩ := hEq
      have := @loopCount_le (1 / samplerate) (attack + decay) t hinc
      linarith [ht2]
  · intro h0 src c t hts
    rw [envSustain_eq src (1 / samplerate) (attack + decay + sustain) sustain_level
      c t hinc, loopCount_of_le hinc hts]
    simp [rampGains, applyGains]
  · intro h0 src c t
    rw [envRelease, if_pos h0]
  · have helperA : ∃ (g : List ℚ) (t' : ℚ), attack ≤ t' ∧ ∀ (src : ℕ → ℚ) (c : ℕ),
        envAttack src (1 / samplerate) attack c
          = some (applyGains src c g, c + g.length, t') := by
      refine ⟨rampGains 0 (1 / attack * (1 / samplerate))
          (loopCount (1 / samplerate) attack 0),
        (loopCount (1 / samplerate) attack 0 : ℚ) * (1 / samplerate), ?_, ?_⟩
      · have := @loopCount_le (1 / samplerate) attack 0 hinc
        linarith
      · intro src c
        rw [rampGains_length]
        exact envAttack_eq src (1 / samplerate) attack c hinc
    have helperD : ∀ t : ℚ, (decay = 0 → attack + decay ≤ t) →
        ∃ (g : List ℚ) (t' : ℚ), ∀ (src : ℕ → ℚ) (c : ℕ),
          envDecay src (1 / samplerate) decay sustain_level (attack + decay) c t
            = some (applyGains src c g, c + g.length, t') := by
      intro t hskip
      refine ⟨rampGains 1 ((sustain_level - 1) / decay * (1 / samplerate))
          (loopCount (1 / samplerate) (attack + decay) t),
        t + (loopCount (1 / samplerate) (attack + decay) t : ℚ) * (1 / samplerate),
        fun src c => ?_⟩
      rw [rampGains_length]
      exact envDecay_eq src (1 / samplerate) decay sustain_level (attack + decay)
        c t hinc hskip
    have helperS : ∀ t : ℚ, ∃ (g : List ℚ) (t' : ℚ), ∀ (src : ℕ → ℚ) (c : ℕ),
        envSustain src (1 / samplerate) (attack + decay + sustain) sustain_level c t
          = (applyGains src c g, c + g.length, t') := by
      intro t
      refine ⟨rampGains sustain_level 0
          (loopCount (1 / samplerate) (attack + decay + sustain) t),
        t + (loopCount (1 / samplerate) (attack + decay + sustain) t : ℚ)
          * (1 / samplerate), fun src c => ?_⟩
      rw [rampGains_length]
      exact envSustain_eq src (1 / samplerate) (attack + decay + sustain)
        sustain_level c t hinc
    have helperR : ∀ t : ℚ, ∃ g : List ℚ, ∀ (src : ℕ → ℚ) (c : ℕ),
        envRelease src (1 / samplerate) release sustain_level
          (attack + decay + sustain + release) c t
          = some (applyGains src c g, c + g.length) := by
      intro t
      rcases eq_or_ne release 0 with h | h
      · refine ⟨[], fun src c => ?_⟩
        rw [envRelease, if_pos h]
        simp [applyGains]
      · refine ⟨rampGains sustain_level (-sustain_level / release * (1 / samplerate))
            (loopCount (1 / samplerate) (attack + decay + sustain + release) t)
          ++ (if 0 < sustain_level + (loopCount (1 / samplerate)
                (attack + decay + sustain + release) t : ℚ)
                * (-sustain_level / release * (1 / samplerate))
              then [sustain_level + (loopCount (1 / samplerate)
                (attack + decay + sustain + release) t : ℚ)
                * (-sustain_level / release * (1 / samplerate))] else []),
          fun src c => ?_⟩
        rw [envRelease_eq src (1 / samplerate) release sustain_level
          (attack + decay + sustain + release) c t hinc h]
        simp only [Option.some.injEq, Prod.mk.injEq, List.length_append,
          rampGains_length, apply_ite List.length, List.length_singleton,
          List.length_nil]
        exact ⟨trivial, by omega⟩
    obtain ⟨g1, t1, ht1, hA⟩ := helperA
    obtain ⟨g2, t2, hD⟩ := helperD t1 (fun h => by rw [h, add_zero]; exact ht1)
    obtain ⟨g3, t3, hS⟩ := helperS t2
    obtain ⟨g4, hR⟩ := helperR t3
    refine ⟨g1 ++ g2 ++ g3 ++ g4, fun src => ?_⟩
    simp only [envPass, hA src, hD src, hS src, hR src, applyGains_append,
      List.length_append, List.append_assoc, Nat.add_assoc]

/-- Witness for C2: with every duration zero (at `samplerate = 1`), the attack
stage of the pass is skipped entirely. -/
theorem envelope_pass_spec_witness :
    envAttack (fun _ => (5 : ℚ)) (1 / 1) 0 0 = some ([], 0, 0) :=
  (envelope_pass_spec 1 0 0 0 (1 / 2) 0 0 (by norm_num) le_rfl le_rfl le_rfl
    le_rfl).1 rfl (fun _ => (5 : ℚ)) 0

end Synth
